import Mathlib

/-!
Verification of the SSML parser/serializer (`ssml.py`) and the LRU cache
(`lru.py`).  Python strings are modelled as `List Char`; fallible Python
code returns `Except PyErr`.  The character classes `\w` and `\s` (and
`str.isspace` / `str.strip`) are modelled over their ASCII fragments via
`Char.isAlphanum` and `Char.isWhitespace`.
-/

/-- A Python string, modelled as a list of characters. -/
abbrev Str := List Char

/-- Ways the Python functions under study can fail: an explicit
`raise Exception(msg)`, an `IndexError` from indexing an empty list,
or an `AttributeError` from dereferencing `None`.  `fuel` is an artifact
of the fuel-indexed recursion used for the scanner loops; the fuel
supplied by the top-level entry points always exceeds the number of
loop iterations (each iteration consumes at least one character). -/
inductive PyErr where
  | exc (msg : String)
  | indexError
  | attributeError
  | fuel
  deriving DecidableEq, Repr

/-- The single-quote character (used by `parse_attributes`'s quote check). -/
def squote : Char := Char.ofNat 39

/-- Python `str.strip()`: drop whitespace from both ends. -/
def pystrip (s : Str) : Str :=
  ((s.dropWhile Char.isWhitespace).reverse.dropWhile Char.isWhitespace).reverse

/-- Worker for `pysplit`, carrying the (reversed) current token. -/
def pysplitAux : Str → Str → List Str
  | [], acc => if acc.isEmpty then [] else [acc.reverse]
  | c :: r, acc =>
    if c.isWhitespace then
      if acc.isEmpty then pysplitAux r [] else acc.reverse :: pysplitAux r []
    else pysplitAux r (c :: acc)

/-- Python `str.split()` with no arguments: split on runs of whitespace,
discarding empty tokens. -/
def pysplit (s : Str) : List Str := pysplitAux s []

/-- `isPref p s` holds when `p` is an initial segment of `s`
(Python `str.startswith`, specialised to our replace scanner). -/
def isPref : Str → Str → Bool
  | [], _ => true
  | _ :: _, [] => false
  | a :: as, b :: bs => a == b && isPref as bs

/-- Fuel-indexed core of Python `str.replace`: scan left to right; at a
match of `p`, emit `r` and continue after the matched span (the
replacement text is not rescanned); otherwise copy one character.
Fuel `s.length` is always sufficient since every step consumes at least
one character of `s`. -/
def pyreplaceF (p r : Str) : Nat → Str → Str
  | _, [] => []
  | 0, s => s
  | n + 1, c :: rest =>
    if !p.isEmpty && isPref p (c :: rest) then
      r ++ pyreplaceF p r n ((c :: rest).drop p.length)
    else
      c :: pyreplaceF p r n rest

/-- Python `s.replace(p, r)` for a non-empty pattern `p`. -/
def pyreplace (p r s : Str) : Str := pyreplaceF p r s.length s

/-- `unescapeXMLChars` from `ssml.py`:
`text.replace("&lt;", "<").replace("&gt;", ">").replace("&amp;", "&")`. -/
def unescapeXMLChars (text : Str) : Str :=
  pyreplace "&amp;".data "&".data
    (pyreplace "&gt;".data ">".data
      (pyreplace "&lt;".data "<".data text))

/-- `escapeXMLChars` from `ssml.py`:
`text.replace("&", "&amp;").replace("<", "&lt;").replace(">", "&gt;")`. -/
def escapeXMLChars (text : Str) : Str :=
  pyreplace ">".data "&gt;".data
    (pyreplace "<".data "&lt;".data
      (pyreplace "&".data "&amp;".data text))

/-- Concatenation of per-character blocks, used to describe the output
of the escaping passes: `blocks f s = f c₀ ++ f c₁ ++ ...`. -/
def blocks (f : Char → Str) : Str → Str
  | [] => []
  | c :: s => f c ++ blocks f s

/-- Per-character output after the `&`-encoding pass of
`escapeXMLChars`. -/
def ampB (c : Char) : Str :=
  if c = '&' then ['&', 'a', 'm', 'p', ';'] else [c]

/-- Per-character output after the `&`- and `<`-encoding passes. -/
def ampLtB (c : Char) : Str :=
  if c = '&' then ['&', 'a', 'm', 'p', ';']
  else if c = '<' then ['&', 'l', 't', ';'] else [c]

/-- Per-character output of the full `escapeXMLChars`. -/
def escB (c : Char) : Str :=
  if c = '&' then ['&', 'a', 'm', 'p', ';']
  else if c = '<' then ['&', 'l', 't', ';']
  else if c = '>' then ['&', 'g', 't', ';'] else [c]

/-- Per-character state after decoding `&lt;` in escaped text. -/
def u1B (c : Char) : Str :=
  if c = '&' then ['&', 'a', 'm', 'p', ';']
  else if c = '>' then ['&', 'g', 't', ';'] else [c]

/-- The node type of `ssml.py`: a `SSMLTag` (name, attribute mapping,
ordered children) or a `SSMLText` leaf.  The attribute mapping is a
Python `dict`, modelled as an insertion-ordered association list. -/
inductive SSMLNode where
  | tag (name : Str) (attributes : List (Str × Str)) (children : List SSMLNode)
  | text (s : Str)

/-- `SSMLTag.__init__` strips the tag name on construction. -/
def mkTag (name : Str) (attributes : List (Str × Str)) (children : List SSMLNode) : SSMLNode :=
  .tag (pystrip name) attributes children

/-- `node.name`.  Parser stacks only ever hold `tag` nodes, so the
`text` case is never exercised. -/
def nodeName : SSMLNode → Str
  | .tag n _ _ => n
  | .text _ => []

/-- `node.children.append(child)` on a tag node. -/
def pushChild (t child : SSMLNode) : SSMLNode :=
  match t with
  | .tag n a cs => .tag n a (cs ++ [child])
  | .text s => .text s

/-- Python `dict.__setitem__`: an existing key keeps its position and
gets the new value, a new key is appended at the end. -/
def dictInsert : List (Str × Str) → Str → Str → List (Str × Str)
  | [], k, v => [(k, v)]
  | (k', v') :: rest, k, v =>
    if k' = k then (k', v) :: rest else (k', v') :: dictInsert rest k v

/-- A character of the regex class `[\w:-]` (ASCII fragment of `\w`). -/
def wordChar (c : Char) : Bool :=
  c.isAlphanum || c == '_' || c == ':' || c == '-'

/-- One attempt of the regex `([\w:-]+)\s*=\s*"([^"]*)"` anchored at the
start of `s`.  The pattern is deterministic: the key is the maximal run
of `[\w:-]` characters (no shorter key can be followed by `\s*=`), the
two `\s*` are maximal whitespace runs, and the value is the run of
non-quote characters up to the next `"`.  Returns the captured key and
value and the remaining suffix. -/
def attrMatchAt (s : Str) : Option (Str × Str × Str) :=
  let key := s.takeWhile wordChar
  if key.isEmpty then none
  else
    match (s.dropWhile wordChar).dropWhile Char.isWhitespace with
    | '=' :: s2 =>
      match s2.dropWhile Char.isWhitespace with
      | '"' :: s3 =>
        let v := s3.takeWhile (fun c => c ≠ '"')
        match s3.dropWhile (fun c => c ≠ '"') with
        | '"' :: s4 => some (key, v, s4)
        | _ => none
      | _ => none
    | _ => none

/-- `re.finditer` over the attribute text: at each position try the
pattern; on success record the span `[i, i+len)` and the captures and
continue after the match, otherwise advance one character.  Each step
consumes at least one character, so fuel `s.length` is sufficient. -/
def findIter : Nat → Str → Nat → List ((Nat × Nat) × (Str × Str))
  | 0, _, _ => []
  | _ + 1, [], _ => []
  | fuel + 1, c :: r, i =>
    match attrMatchAt (c :: r) with
    | some (k, v, rest) =>
      let len := (c :: r).length - rest.length
      ((i, i + len), (k, v)) :: findIter fuel rest (i + len)
    | none => findIter fuel r (i + 1)

/-- `i in covered_spans` where the spans are the regex match spans. -/
def coveredIdx (ms : List (Nat × Nat)) (i : Nat) : Bool :=
  ms.any (fun se => se.1 ≤ i && i < se.2)

/-- The coverage-gap test of `parse_attributes`: some character of `s`
is neither whitespace nor inside a covered span. -/
def uncoveredNonWs (s : Str) (ms : List (Nat × Nat)) : Bool :=
  s.enum.any (fun p => !p.2.isWhitespace && !coveredIdx ms p.1)

/-- `attributes[key] = val` for every match, in match order. -/
def buildAttrs (ms : List (Str × Str)) : List (Str × Str) :=
  ms.foldl (fun d kv => dictInsert d kv.1 kv.2) []

/-- `parse_attributes` from `ssml.py`: reject a single quote anywhere in
the tag interior; take the first whitespace-delimited token as the tag
name (an `IndexError` if there is none); the rest, stripped, is the
attribute text; scan it for `key="value"` matches, reject if any
non-whitespace character is outside every match span, and otherwise
build the attribute dict from the matches. -/
def parse_attributes (tag_str : Str) : Except PyErr (List (Str × Str)) :=
  if tag_str.contains squote then
    .error (.exc "Single-quoted attributes not allowed")
  else
    match pysplit (pystrip tag_str) with
    | [] => .error .indexError
    | tag_name :: _ =>
      let attr_str := pystrip (tag_str.drop tag_name.length)
      if attr_str.isEmpty then .ok []
      else
        let ms := findIter attr_str.length attr_str 0
        if uncoveredNonWs attr_str (ms.map (fun m => m.1)) then
          .error (.exc "Malformed attribute")
        else .ok (buildAttrs (ms.map (fun m => m.2)))

/-- The tag name `parse_attributes` extracts:
`tag_str.strip().split()[0]` (with default `[]` for the crash case). -/
def tagNameOf (tag_str : Str) : Str :=
  (pysplit (pystrip tag_str)).headD []

/-- The attribute text `parse_attributes` scans:
`tag_str[len(tag_name):].strip()`. -/
def attrTextOf (tag_str : Str) : Str :=
  pystrip (tag_str.drop (tagNameOf tag_str).length)

/-- The spans covered by the `key="value"` regex matches over `s`. -/
def coverSpansOf (s : Str) : List (Nat × Nat) :=
  (findIter s.length s 0).map (fun m => m.1)

/-- The result is a MalformedAttributeSyntax failure: either of the two
exceptions `parse_attributes` raises for malformed attribute syntax
(the spec folds both into one error kind). -/
def MalformedResult (r : Except PyErr (List (Str × Str))) : Prop :=
  r = .error (.exc "Single-quoted attributes not allowed") ∨
  r = .error (.exc "Malformed attribute")

/-- The scanner loop of `parseSSML`, one constructor application per
iteration of the Python `while` loop.  State: remaining input, stack of
open tags (top first), completed root, `seen_top_level` flag. -/
def parseLoop : Nat → Str → List SSMLNode → Option SSMLNode → Bool → Except PyErr SSMLNode
  | 0, _, _, _, _ => .error .fuel
  | _ + 1, [], stack, root, _ =>
    if !stack.isEmpty then .error (.exc "Unclosed tags remaining")
    else
      match root with
      | none => .error (.exc "Root tag must be <speak>")
      | some t =>
        if nodeName t = "speak".data then .ok t
        else .error (.exc "Root tag must be <speak>")
  | fuel + 1, c :: r, stack, root, seen =>
    if c = '<' then
      let content := r.takeWhile (fun x => x ≠ '>')
      match r.dropWhile (fun x => x ≠ '>') with
      | [] => .error (.exc "Missing closing angle bracket")
      | _ :: r' =>
        match pystrip content with
        | '/' :: nm =>
          -- closing tag
          let closing_name := pystrip nm
          match stack with
          | [] => .error (.exc "Unmatched closing tag")
          | top :: ss =>
            if nodeName top ≠ closing_name then .error (.exc "Mismatched closing tag")
            else
              match ss with
              | parent :: ss' => parseLoop fuel r' (pushChild parent top :: ss') root seen
              | [] =>
                match root with
                | some _ => .error (.exc "Multiple top-level tags")
                | none => parseLoop fuel r' [] (some top) true
        | tc =>
          if tc.getLast? = some '/' then
            -- self-closing tag
            let body := tc.dropLast
            match pysplit (pystrip body) with
            | [] => .error .indexError
            | name :: _ =>
              match parse_attributes body with
              | .error e => .error e
              | .ok attrs =>
                match stack with
                | [] => .error (.exc "Self-closing tag outside of root")
                | top :: ss =>
                  parseLoop fuel r' (pushChild top (mkTag name attrs []) :: ss) root seen
          else
            -- opening tag
            match pysplit tc with
            | [] => .error .indexError
            | name :: _ =>
              match parse_attributes tc with
              | .error e => .error e
              | .ok attrs =>
                if stack.isEmpty && seen then .error (.exc "Multiple top-level tags")
                else parseLoop fuel r' (mkTag name attrs [] :: stack) root seen
    else
      let text := (c :: r).takeWhile (fun x => x ≠ '<')
      let r' := (c :: r).dropWhile (fun x => x ≠ '<')
      if (pystrip text).isEmpty then parseLoop fuel r' stack root seen
      else
        match stack with
        | [] => .error (.exc "Text outside root tag")
        | top :: ss =>
          parseLoop fuel r' (pushChild top (.text (unescapeXMLChars text)) :: ss) root seen

/-- `parseSSML` from `ssml.py`.  Every loop iteration consumes at least
one input character, so `length + 1` fuel always suffices. -/
def parseSSML (ssml : Str) : Except PyErr SSMLNode :=
  parseLoop (ssml.length + 1) ssml [] none false

/-- `f'{k}="{v}"'`. -/
def attrPairText (kv : Str × Str) : Str :=
  kv.1 ++ '=' :: '"' :: kv.2 ++ ['"']

/-- `' '.join(...)`. -/
def spaceJoin : List Str → Str
  | [] => []
  | [x] => x
  | x :: xs => x ++ ' ' :: spaceJoin xs

mutual

/-- `ssmlNodeToText` from `ssml.py`: text renders escaped; a tag renders
self-closing when it has no children (with or without attributes) and in
open/children/close form otherwise. -/
def ssmlNodeToText : SSMLNode → Str
  | .text s => escapeXMLChars s
  | .tag name attrs children =>
    let a := spaceJoin (attrs.map attrPairText)
    let ch := childrenText children
    if ch.isEmpty && a.isEmpty then '<' :: name ++ ['/', '>']
    else if ch.isEmpty then '<' :: name ++ ' ' :: a ++ ['/', '>']
    else if a.isEmpty then '<' :: name ++ '>' :: ch ++ '<' :: '/' :: name ++ ['>']
    else '<' :: name ++ ' ' :: a ++ '>' :: ch ++ '<' :: '/' :: name ++ ['>']

/-- `''.join(ssmlNodeToText(child) for child in node.children)`. -/
def childrenText : List SSMLNode → Str
  | [] => []
  | n :: ns => ssmlNodeToText n ++ childrenText ns

end

/-- The LRU cache of `lru.py`.  The doubly-linked list plus key map is
modelled by its recency order: `entries` lists the `(key, value)` pairs
from most recently used (front of the linked list) to least recently
used (back).  `capacity` is `item_limit`. -/
structure LRUCache (V : Type) where
  capacity : Nat
  entries : List (String × V)

/-- `LRUCache(item_limit)`. -/
def LRUCache.init (V : Type) (item_limit : Nat) : LRUCache V :=
  ⟨item_limit, []⟩

/-- `LRUCache.has`: on a hit, move the node to the front and return
`True`; otherwise return `False`.  Also returns the updated cache. -/
def LRUCache.has (c : LRUCache V) (key : String) : Bool × LRUCache V :=
  match c.entries.find? (fun p => p.1 == key) with
  | some kv => (true, ⟨c.capacity, kv :: c.entries.eraseP (fun p => p.1 == key)⟩)
  | none => (false, c)

/-- `LRUCache.get`: on a hit, move the node to the front and return its
value; otherwise return `None`.  Also returns the updated cache. -/
def LRUCache.get (c : LRUCache V) (key : String) : Option V × LRUCache V :=
  match c.entries.find? (fun p => p.1 == key) with
  | some kv => (some kv.2, ⟨c.capacity, kv :: c.entries.eraseP (fun p => p.1 == key)⟩)
  | none => (none, c)

/-- `LRUCache.set`: on a present key, update the value and move the node
to the front; on a new key, first evict `tail.prev` when at capacity
(dereferencing the dummy head's `None` predecessor when the cache is
empty, an `AttributeError`), then insert at the front. -/
def LRUCache.set (c : LRUCache V) (key : String) (v : V) : Except PyErr (LRUCache V) :=
  match c.entries.find? (fun p => p.1 == key) with
  | some _ => .ok ⟨c.capacity, (key, v) :: c.entries.eraseP (fun p => p.1 == key)⟩
  | none =>
    if c.entries.length ≥ c.capacity then
      match c.entries.getLast? with
      | none => .error .attributeError
      | some _ => .ok ⟨c.capacity, (key, v) :: c.entries.dropLast⟩
    else .ok ⟨c.capacity, (key, v) :: c.entries⟩

/-- One cache operation: `has(k)`, `get(k)` or `set(k, v)`. -/
inductive LRUOp (V : Type) where
  | hasOp (k : String)
  | getOp (k : String)
  | setOp (k : String) (v : V)

/-- The key an operation touches. -/
def opKey : LRUOp V → String
  | .hasOp k => k
  | .getOp k => k
  | .setOp k _ => k

/-- Run one operation for its state effect. -/
def applyOp (c : LRUCache V) : LRUOp V → Except PyErr (LRUCache V)
  | .hasOp k => .ok (c.has k).2
  | .getOp k => .ok (c.get k).2
  | .setOp k v => c.set k v

/-- Run a sequence of operations, stopping at the first failure. -/
def runOps (c : LRUCache V) : List (LRUOp V) → Except PyErr (LRUCache V)
  | [] => .ok c
  | op :: rest =>
    match applyOp c op with
    | .error e => .error e
    | .ok c' => runOps c' rest

/-- Worker for `lastAcc`: position (from `i`) of the last operation in
the list that touches `k`. -/
def lastAccAux (i : Nat) : List (LRUOp V) → String → Option Nat
  | [], _ => none
  | op :: ops, k =>
    match lastAccAux (i + 1) ops k with
    | some t => some t
    | none => if opKey op = k then some i else none

/-- The index of the most recent operation in `ops` touching key `k`
(`none` when no operation touches it). -/
def lastAcc (ops : List (LRUOp V)) (k : String) : Option Nat :=
  lastAccAux 0 ops k

mutual

/-- Every `text` node in the tree has at least one non-whitespace
character in its payload. -/
def textsNonBlank : SSMLNode → Bool
  | .text s => s.any (fun c => !c.isWhitespace)
  | .tag _ _ cs => textsNonBlankList cs

/-- `textsNonBlank` over a list of children. -/
def textsNonBlankList : List SSMLNode → Bool
  | [] => true
  | n :: ns => textsNonBlank n && textsNonBlankList ns

end

/-- Key `k1` was accessed (by `has`, `get` or `set`) more recently than
key `k2` in the operation history `ops`. -/
def moreRecent (ops : List (LRUOp V)) (k1 k2 : String) : Prop :=
  ∃ t1 t2, lastAcc ops k1 = some t1 ∧ lastAcc ops k2 = some t2 ∧ t2 < t1

/-- Invariant tying a reachable cache state to its operation history:
the recency list is sorted by strictly more recent last access, every
stored key has been accessed, and stored keys are unique. -/
def RecencyInv (ops : List (LRUOp V)) (c : LRUCache V) : Prop :=
  c.entries.Pairwise (fun a b => moreRecent ops a.1 b.1) ∧
  (∀ q ∈ c.entries, ∃ t, lastAcc ops q.1 = some t) ∧
  (c.entries.map Prod.fst).Nodup

theorem isPref_cons_cons {a : Char} {p : Str} {b : Char} {s : Str} :
    isPref (a :: p) (b :: s) = ((a == b) && isPref p s) := rfl

theorem isPref_append (p t : Str) : isPref p (p ++ t) = true := by
  induction p with
  | nil => rfl
  | cons a p' ih => rw [List.cons_append, isPref_cons_cons, ih]; simp

/-- `pyreplaceF` does not depend on the fuel once it is at least the
input length. -/
theorem pyreplaceF_irrel {p r : Str} :
    ∀ (n m : Nat) (s : Str), s.length ≤ n → s.length ≤ m →
      pyreplaceF p r n s = pyreplaceF p r m s := by
  intro n
  induction n with
  | zero =>
    intro m s hn _
    have hs : s = [] := List.eq_nil_of_length_eq_zero (Nat.le_zero.mp hn)
    subst hs
    cases m <;> rfl
  | succ n ih =>
    intro m s hn hm
    cases s with
    | nil => cases m <;> rfl
    | cons c rest =>
      cases m with
      | zero => simp at hm
      | succ m =>
        show (if !p.isEmpty && isPref p (c :: rest) then
                r ++ pyreplaceF p r n ((c :: rest).drop p.length)
              else c :: pyreplaceF p r n rest)
            = (if !p.isEmpty && isPref p (c :: rest) then
                r ++ pyreplaceF p r m ((c :: rest).drop p.length)
              else c :: pyreplaceF p r m rest)
        have hn' : rest.length ≤ n := by simpa using hn
        have hm' : rest.length ≤ m := by simpa using hm
        by_cases hcond : (!p.isEmpty && isPref p (c :: rest)) = true
        · rw [if_pos hcond, if_pos hcond]
          have hp : 1 ≤ p.length := by
            cases p with
            | nil => simp at hcond
            | cons a as => simp
          have hlen : ((c :: rest).drop p.length).length ≤ rest.length := by
            rw [List.length_drop]
            simp only [List.length_cons]
            omega
          rw [ih _ _ (le_trans hlen hn') (le_trans hlen hm')]
        · rw [if_neg hcond, if_neg hcond, ih _ _ hn' hm']

theorem pyreplace_cons_neg {p r : Str} {c : Char} {t : Str}
    (h : isPref p (c :: t) = false) :
    pyreplace p r (c :: t) = c :: pyreplace p r t := by
  show (if !p.isEmpty && isPref p (c :: t) then
          r ++ pyreplaceF p r t.length ((c :: t).drop p.length)
        else c :: pyreplaceF p r t.length t)
      = c :: pyreplace p r t
  simp [h, pyreplace]

theorem pyreplace_cons_pos {p r : Str} {c : Char} {t : Str}
    (hp : p ≠ []) (h : isPref p (c :: t) = true) :
    pyreplace p r (c :: t) = r ++ pyreplace p r ((c :: t).drop p.length) := by
  have hpe : p.isEmpty = false := by
    cases p with
    | nil => exact absurd rfl hp
    | cons a as => rfl
  have hp1 : 1 ≤ p.length := by
    cases p with
    | nil => exact absurd rfl hp
    | cons a as => simp
  have hlen : ((c :: t).drop p.length).length ≤ t.length := by
    rw [List.length_drop]
    simp only [List.length_cons]
    omega
  show (if !p.isEmpty && isPref p (c :: t) then
          r ++ pyreplaceF p r t.length ((c :: t).drop p.length)
        else c :: pyreplaceF p r t.length t)
      = r ++ pyreplace p r ((c :: t).drop p.length)
  rw [hpe, h]
  simp only [Bool.not_false, Bool.true_and, if_true]
  exact congrArg (r ++ ·) (pyreplaceF_irrel _ _ _ hlen (le_refl _))

/-- Skip step of the replace scanner when the first pattern character
does not match. -/
theorem pyreplace_cons_ne {a : Char} {p' r : Str} {c : Char} {t : Str} (h : a ≠ c) :
    pyreplace (a :: p') r (c :: t) = c :: pyreplace (a :: p') r t :=
  pyreplace_cons_neg (by rw [isPref_cons_cons, beq_eq_false_iff_ne.mpr h, Bool.false_and])

/-- Match step of the replace scanner at an exact occurrence of the
pattern. -/
theorem pyreplace_block_pos {r : Str} (p : Str) (hp : p ≠ []) (t : Str) :
    pyreplace p r (p ++ t) = r ++ pyreplace p r t := by
  cases p with
  | nil => exact absurd rfl hp
  | cons a p' =>
    have h1 : isPref (a :: p') ((a :: p') ++ t) = true := isPref_append _ _
    rw [List.cons_append] at h1
    rw [List.cons_append, pyreplace_cons_pos hp h1]
    congr 1
    rw [← List.cons_append, List.drop_left]

/-- Skip steps of the scanner for the second character of an `&`-block:
`"&lt;"` fails on `"&amp;..."` at its second character. -/
theorem pyreplace_lt_skips_amp (t : Str) :
    pyreplace ['&', 'l', 't', ';'] ['<'] ('&' :: 'a' :: t)
      = '&' :: pyreplace ['&', 'l', 't', ';'] ['<'] ('a' :: t) :=
  pyreplace_cons_neg rfl

/-- `"&lt;"` fails on `"&gt;..."` at its second character. -/
theorem pyreplace_lt_skips_gt (t : Str) :
    pyreplace ['&', 'l', 't', ';'] ['<'] ('&' :: 'g' :: t)
      = '&' :: pyreplace ['&', 'l', 't', ';'] ['<'] ('g' :: t) :=
  pyreplace_cons_neg rfl

/-- `"&gt;"` fails on `"&amp;..."` at its second character. -/
theorem pyreplace_gt_skips_amp (t : Str) :
    pyreplace ['&', 'g', 't', ';'] ['>'] ('&' :: 'a' :: t)
      = '&' :: pyreplace ['&', 'g', 't', ';'] ['>'] ('a' :: t) :=
  pyreplace_cons_neg rfl

theorem escape_amp_stage (s : Str) :
    pyreplace ['&'] ['&', 'a', 'm', 'p', ';'] s = blocks ampB s := by
  induction s with
  | nil => rfl
  | cons c s ih =>
    by_cases h1 : c = '&'
    · subst h1
      rw [show blocks ampB ('&' :: s) = ['&'] ++ ('a' :: 'm' :: 'p' :: ';' :: blocks ampB s)
            from rfl]
      rw [show ('&' :: s : Str) = ['&'] ++ s from rfl]
      rw [pyreplace_block_pos ['&'] (by decide) s, ih]
      rfl
    · have hb : blocks ampB (c :: s) = c :: blocks ampB s := by
        simp [blocks, ampB, h1]
      rw [hb, pyreplace_cons_ne (Ne.symm h1), ih]

theorem escape_lt_stage (s : Str) :
    pyreplace ['<'] ['&', 'l', 't', ';'] (blocks ampB s) = blocks ampLtB s := by
  induction s with
  | nil => rfl
  | cons c s ih =>
    by_cases h1 : c = '&'
    · subst h1
      rw [show blocks ampB ('&' :: s) = '&' :: 'a' :: 'm' :: 'p' :: ';' :: blocks ampB s
            from rfl]
      rw [pyreplace_cons_ne (by decide), pyreplace_cons_ne (by decide),
          pyreplace_cons_ne (by decide), pyreplace_cons_ne (by decide),
          pyreplace_cons_ne (by decide), ih]
      rfl
    by_cases h2 : c = '<'
    · subst h2
      rw [show blocks ampB ('<' :: s) = ['<'] ++ blocks ampB s by simp [blocks, ampB]]
      rw [pyreplace_block_pos ['<'] (by decide) _, ih]
      simp [blocks, ampLtB]
    · have hb : blocks ampB (c :: s) = c :: blocks ampB s := by
        simp [blocks, ampB, h1]
      have hb' : blocks ampLtB (c :: s) = c :: blocks ampLtB s := by
        simp [blocks, ampLtB, h1, h2]
      rw [hb, hb', pyreplace_cons_ne (Ne.symm h2), ih]

theorem escape_gt_stage (s : Str) :
    pyreplace ['>'] ['&', 'g', 't', ';'] (blocks ampLtB s) = blocks escB s := by
  induction s with
  | nil => rfl
  | cons c s ih =>
    by_cases h1 : c = '&'
    · subst h1
      rw [show blocks ampLtB ('&' :: s) = '&' :: 'a' :: 'm' :: 'p' :: ';' :: blocks ampLtB s
            from rfl]
      rw [pyreplace_cons_ne (by decide), pyreplace_cons_ne (by decide),
          pyreplace_cons_ne (by decide), pyreplace_cons_ne (by decide),
          pyreplace_cons_ne (by decide), ih]
      rfl
    by_cases h2 : c = '<'
    · subst h2
      rw [show blocks ampLtB ('<' :: s) = '&' :: 'l' :: 't' :: ';' :: blocks ampLtB s
            from rfl]
      rw [pyreplace_cons_ne (by decide), pyreplace_cons_ne (by decide),
          pyreplace_cons_ne (by decide), pyreplace_cons_ne (by decide), ih]
      rfl
    by_cases h3 : c = '>'
    · subst h3
      rw [show blocks ampLtB ('>' :: s) = ['>'] ++ blocks ampLtB s by simp [blocks, ampLtB]]
      rw [pyreplace_block_pos ['>'] (by decide) _, ih]
      simp [blocks, escB]
    · have hb : blocks ampLtB (c :: s) = c :: blocks ampLtB s := by
        simp [blocks, ampLtB, h1, h2]
      have hb' : blocks escB (c :: s) = c :: blocks escB s := by
        simp [blocks, escB, h1, h2, h3]
      rw [hb, hb', pyreplace_cons_ne (Ne.symm h3), ih]

theorem unescape_lt_stage (s : Str) :
    pyreplace ['&', 'l', 't', ';'] ['<'] (blocks escB s) = blocks u1B s := by
  induction s with
  | nil => rfl
  | cons c s ih =>
    by_cases h1 : c = '&'
    · subst h1
      rw [show blocks escB ('&' :: s) = '&' :: 'a' :: 'm' :: 'p' :: ';' :: blocks escB s
            from rfl]
      rw [show blocks u1B ('&' :: s) = '&' :: 'a' :: 'm' :: 'p' :: ';' :: blocks u1B s
            from rfl]
      rw [pyreplace_lt_skips_amp, pyreplace_cons_ne (by decide),
          pyreplace_cons_ne (by decide), pyreplace_cons_ne (by decide),
          pyreplace_cons_ne (by decide), ih]
    by_cases h2 : c = '<'
    · subst h2
      rw [show blocks escB ('<' :: s) = ['&', 'l', 't', ';'] ++ blocks escB s from rfl]
      rw [pyreplace_block_pos ['&', 'l', 't', ';'] (by decide) _, ih]
      simp [blocks, u1B]
    by_cases h3 : c = '>'
    · subst h3
      rw [show blocks escB ('>' :: s) = '&' :: 'g' :: 't' :: ';' :: blocks escB s from rfl]
      rw [show blocks u1B ('>' :: s) = '&' :: 'g' :: 't' :: ';' :: blocks u1B s from rfl]
      rw [pyreplace_lt_skips_gt, pyreplace_cons_ne (by decide),
          pyreplace_cons_ne (by decide), pyreplace_cons_ne (by decide), ih]
    · have hb : blocks escB (c :: s) = c :: blocks escB s := by
        simp [blocks, escB, h1, h2, h3]
      have hb' : blocks u1B (c :: s) = c :: blocks u1B s := by
        simp [blocks, u1B, h1, h3]
      rw [hb, hb', pyreplace_cons_ne (Ne.symm h1), ih]

theorem unescape_gt_stage (s : Str) :
    pyreplace ['&', 'g', 't', ';'] ['>'] (blocks u1B s) = blocks ampB s := by
  induction s with
  | nil => rfl
  | cons c s ih =>
    by_cases h1 : c = '&'
    · subst h1
      rw [show blocks u1B ('&' :: s) = '&' :: 'a' :: 'm' :: 'p' :: ';' :: blocks u1B s
            from rfl]
      rw [show blocks ampB ('&' :: s) = '&' :: 'a' :: 'm' :: 'p' :: ';' :: blocks ampB s
            from rfl]
      rw [pyreplace_gt_skips_amp, pyreplace_cons_ne (by decide),
          pyreplace_cons_ne (by decide), pyreplace_cons_ne (by decide),
          pyreplace_cons_ne (by decide), ih]
    by_cases h3 : c = '>'
    · subst h3
      rw [show blocks u1B ('>' :: s) = ['&', 'g', 't', ';'] ++ blocks u1B s from rfl]
      rw [pyreplace_block_pos ['&', 'g', 't', ';'] (by decide) _, ih]
      simp [blocks, ampB]
    · have hb : blocks u1B (c :: s) = c :: blocks u1B s := by
        simp [blocks, u1B, h1, h3]
      have hb' : blocks ampB (c :: s) = c :: blocks ampB s := by
        simp [blocks, ampB, h1]
      rw [hb, hb', pyreplace_cons_ne (Ne.symm h1), ih]

theorem unescape_amp_stage (s : Str) :
    pyreplace ['&', 'a', 'm', 'p', ';'] ['&'] (blocks ampB s) = s := by
  induction s with
  | nil => rfl
  | cons c s ih =>
    by_cases h1 : c = '&'
    · subst h1
      rw [show blocks ampB ('&' :: s) = ['&', 'a', 'm', 'p', ';'] ++ blocks ampB s from rfl]
      rw [pyreplace_block_pos ['&', 'a', 'm', 'p', ';'] (by decide) _, ih]
      rfl
    · have hb : blocks ampB (c :: s) = c :: blocks ampB s := by
        simp [blocks, ampB, h1]
      rw [hb, pyreplace_cons_ne (Ne.symm h1), ih]

/-- C5: for every string `s`,
`unescapeXMLChars (escapeXMLChars s) = s`: encoding the three supported
characters (ampersand first, then the angle brackets) and then decoding
the three entities recovers the original string exactly, with no
double-encoding or double-decoding. -/
theorem c5_escape_unescape_roundtrip (s : Str) :
    unescapeXMLChars (escapeXMLChars s) = s := by
  have he : escapeXMLChars s = blocks escB s := by
    show pyreplace ['>'] ['&', 'g', 't', ';']
        (pyreplace ['<'] ['&', 'l', 't', ';']
          (pyreplace ['&'] ['&', 'a', 'm', 'p', ';'] s)) = blocks escB s
    rw [escape_amp_stage, escape_lt_stage, escape_gt_stage]
  rw [he]
  show pyreplace ['&', 'a', 'm', 'p', ';'] ['&']
      (pyreplace ['&', 'g', 't', ';'] ['>']
        (pyreplace ['&', 'l', 't', ';'] ['<'] (blocks escB s))) = s
  rw [unescape_lt_stage, unescape_gt_stage, unescape_amp_stage]

/-- C1: the parse/render round-trip fails on the code.  Parsing
`"<speak></speak>"` succeeds with a childless, attribute-less root,
which `ssmlNodeToText` renders in the self-closing form `"<speak/>"`;
re-parsing that output fails with "Self-closing tag outside of root"
instead of returning an equal tree, so
`parseSSML (ssmlNodeToText t) = t` does not hold for this parse
result. -/
theorem c1_roundtrip_fails_on_childless_root :
    parseSSML "<speak></speak>".data = .ok (.tag "speak".data [] []) ∧
    ssmlNodeToText (.tag "speak".data [] []) = "<speak/>".data ∧
    parseSSML (ssmlNodeToText (.tag "speak".data [] []))
      = .error (.exc "Self-closing tag outside of root") :=
  ⟨rfl, rfl, rfl⟩

/-- C2: `parseSSML` does not always fail with one of the enumerated
error kinds: on `"<>"` (and on a whitespace-only tag interior
`"<  >"`) the expression `tag_content.split()[0]` indexes an empty
list, an `IndexError` outside the enumerated kinds. -/
theorem c2_empty_tag_interior_index_error :
    parseSSML "<>".data = .error .indexError ∧
    parseSSML "<  >".data = .error .indexError :=
  ⟨rfl, rfl⟩

/-- C3 (counterexample): `parseSSML "<speak/><speak/>"` does not fail
with the MultipleTopLevelRoots error ("Multiple top-level tags"): the
first self-closing tag is processed with an empty stack, which raises
first. -/
theorem c3_not_multiple_top_level_roots :
    parseSSML "<speak/><speak/>".data ≠ Except.error (PyErr.exc "Multiple top-level tags") := by
  intro h
  rw [show parseSSML "<speak/><speak/>".data
      = Except.error (PyErr.exc "Self-closing tag outside of root") from rfl] at h
  simp only [Except.error.injEq, PyErr.exc.injEq] at h
  exact absurd h (by decide)

/-- C3 (amended): `parseSSML "<speak/><speak/>"` fails with the
SelfClosingOutsideRoot error kind ("Self-closing tag outside of
root"), because the leading self-closing tag is scanned while the stack
is empty, before any top-level root is recorded. -/
theorem c3_self_closing_outside_root :
    parseSSML "<speak/><speak/>".data
      = .error (.exc "Self-closing tag outside of root") := rfl

/-- C7: `"<speak><break/></speak>"` and
`"<speak><break></break></speak>"` both parse successfully to the same
tree: a `speak` root whose only child is a childless, attribute-less
`break` tag. -/
theorem c7_self_closing_equivalence :
    parseSSML "<speak><break/></speak>".data
      = .ok (.tag "speak".data [] [.tag "break".data [] []]) ∧
    parseSSML "<speak><break></break></speak>".data
      = .ok (.tag "speak".data [] [.tag "break".data [] []]) :=
  ⟨rfl, rfl⟩

theorem pysplitAux_ne_nil :
    ∀ (s acc : Str), acc ≠ [] → pysplitAux s acc ≠ [] := by
  intro s
  induction s with
  | nil =>
    intro acc h
    have : acc.isEmpty = false := by
      cases acc with
      | nil => exact absurd rfl h
      | cons a as => rfl
    simp [pysplitAux, this]
  | cons c r ih =>
    intro acc h
    show pysplitAux (c :: r) acc ≠ []
    by_cases hc : c.isWhitespace
    · have : acc.isEmpty = false := by
        cases acc with
        | nil => exact absurd rfl h
        | cons a as => rfl
      simp [pysplitAux, hc, this]
    · simpa [pysplitAux, hc] using ih (c :: acc) (by simp)

theorem pysplit_eq_nil_iff (s : Str) :
    pysplit s = [] ↔ s.all Char.isWhitespace = true := by
  induction s with
  | nil => simp [pysplit, pysplitAux]
  | cons c r ih =>
    by_cases hc : c.isWhitespace
    · show pysplitAux (c :: r) [] = [] ↔ _
      simp only [pysplitAux, hc, if_true, List.isEmpty_nil]
      simpa [hc] using ih
    · constructor
      · intro hh
        have hne := pysplitAux_ne_nil r [c] (by simp)
        exact absurd hh (by simpa [pysplit, pysplitAux, hc] using hne)
      · intro hh
        simp [hc] at hh

theorem dropWhile_ws_any (s : Str) :
    (s.dropWhile Char.isWhitespace).any (fun c => !c.isWhitespace)
      = s.any (fun c => !c.isWhitespace) := by
  induction s with
  | nil => rfl
  | cons c r ih =>
    by_cases hc : c.isWhitespace
    · simp [List.dropWhile_cons, hc, ih]
    · simp [List.dropWhile_cons, hc]

theorem pystrip_any (s : Str) :
    (pystrip s).any (fun c => !c.isWhitespace) = s.any (fun c => !c.isWhitespace) := by
  unfold pystrip
  rw [List.any_reverse, dropWhile_ws_any, List.any_reverse, dropWhile_ws_any]

theorem all_ws_eq_not_any (s : Str) :
    s.all Char.isWhitespace = !s.any (fun c => !c.isWhitespace) := by
  induction s with
  | nil => rfl
  | cons c r ih => by_cases hc : c.isWhitespace <;> simp [hc, ih]

/-- A tag interior with a non-whitespace character always yields a tag
name token. -/
theorem pysplit_pystrip_ne_nil {tag_str : Str}
    (h : tag_str.any (fun c => !c.isWhitespace) = true) :
    pysplit (pystrip tag_str) ≠ [] := by
  intro hnil
  have hall := (pysplit_eq_nil_iff (pystrip tag_str)).mp hnil
  rw [all_ws_eq_not_any, pystrip_any, h] at hall
  exact absurd hall (by decide)

/-- C4: given a tag interior containing at least one non-whitespace
character (so that a tag name exists, per the contract of §4.1),
`parse_attributes` fails with MalformedAttributeSyntax (either of its
two malformed-syntax exceptions) if and only if a single quote occurs
in the tag interior or some non-whitespace character of the attribute
text lies outside every span covered by a `key="value"` regex match;
when neither condition holds it returns an attribute mapping without
failing. -/
theorem c4_malformed_iff (tag_str : Str)
    (h : tag_str.any (fun c => !c.isWhitespace) = true) :
    (MalformedResult (parse_attributes tag_str) ↔
      (tag_str.contains squote = true ∨
        uncoveredNonWs (attrTextOf tag_str) (coverSpansOf (attrTextOf tag_str)) = true)) ∧
    (¬(tag_str.contains squote = true ∨
        uncoveredNonWs (attrTextOf tag_str) (coverSpansOf (attrTextOf tag_str)) = true) →
      ∃ m, parse_attributes tag_str = .ok m) := by
  have hsp := pysplit_pystrip_ne_nil h
  by_cases hq : tag_str.contains squote = true
  · constructor
    · rw [parse_attributes, if_pos hq]
      exact ⟨fun _ => Or.inl hq, fun _ => Or.inl rfl⟩
    · intro hno
      exact absurd (Or.inl hq) hno
  · rw [parse_attributes, if_neg hq]
    cases hsp' : pysplit (pystrip tag_str) with
    | nil => exact absurd hsp' hsp
    | cons tag_name rest =>
      have hname : tagNameOf tag_str = tag_name := by
        simp [tagNameOf, hsp']
      have hAT : attrTextOf tag_str = pystrip (tag_str.drop tag_name.length) := by
        rw [attrTextOf, hname]
      simp only
      by_cases he : (pystrip (tag_str.drop tag_name.length)).isEmpty
      · have hATnil : attrTextOf tag_str = [] := by
          rw [hAT]
          exact List.isEmpty_iff.mp he
        rw [if_pos he]
        constructor
        · simp only [MalformedResult, hATnil]
          constructor
          · rintro (hh | hh) <;> exact absurd hh (by simp)
          · rintro (hh | hh)
            · exact absurd hh hq
            · exact absurd hh (by decide)
        · exact fun _ => ⟨[], rfl⟩
      · rw [if_neg he]
        have hUN : uncoveredNonWs (attrTextOf tag_str) (coverSpansOf (attrTextOf tag_str))
            = uncoveredNonWs (pystrip (tag_str.drop tag_name.length))
                ((findIter (pystrip (tag_str.drop tag_name.length)).length
                  (pystrip (tag_str.drop tag_name.length)) 0).map (fun m => m.1)) := by
          rw [hAT]
          rfl
        by_cases hu : uncoveredNonWs (pystrip (tag_str.drop tag_name.length))
            ((findIter (pystrip (tag_str.drop tag_name.length)).length
              (pystrip (tag_str.drop tag_name.length)) 0).map (fun m => m.1)) = true
        · rw [if_pos hu]
          constructor
          · constructor
            · intro _
              right
              rw [hUN]
              exact hu
            · exact fun _ => Or.inr rfl
          · intro hno
            refine absurd (Or.inr ?_) hno
            rw [hUN]
            exact hu
        · rw [if_neg hu]
          constructor
          · constructor
            · rintro (hh | hh) <;> exact absurd hh (by simp)
            · rintro (hh | hh)
              · exact absurd hh hq
              · rw [hUN] at hh
                exact absurd hh hu
          · exact fun _ => ⟨_, rfl⟩

/-- Witness for C4 at the concrete tag interior `b a="1"`. -/
theorem c4_malformed_iff_witness :
    ("b a=\"1\"".data.any (fun c => !c.isWhitespace) = true) ∧
    ((MalformedResult (parse_attributes "b a=\"1\"".data) ↔
      ("b a=\"1\"".data.contains squote = true ∨
        uncoveredNonWs (attrTextOf "b a=\"1\"".data)
          (coverSpansOf (attrTextOf "b a=\"1\"".data)) = true)) ∧
    (¬("b a=\"1\"".data.contains squote = true ∨
        uncoveredNonWs (attrTextOf "b a=\"1\"".data)
          (coverSpansOf (attrTextOf "b a=\"1\"".data)) = true) →
      ∃ m, parse_attributes "b a=\"1\"".data = .ok m)) :=
  ⟨by decide, c4_malformed_iff _ (by decide)⟩

theorem pystrip_eq_nil_iff (t : Str) :
    pystrip t = [] ↔ t.any (fun c => !c.isWhitespace) = false := by
  constructor
  · intro hnil
    by_contra hne
    have hany : t.any (fun c => !c.isWhitespace) = true := by
      cases ht : t.any (fun c => !c.isWhitespace) with
      | false => exact absurd ht hne
      | true => rfl
    have := pystrip_any t
    rw [hnil, hany] at this
    exact absurd this (by decide)
  · intro hany
    have hall : ∀ x ∈ t, x.isWhitespace = true := by
      intro x hx
      have := List.any_eq_false.mp hany x hx
      simpa using this
    have hdrop : t.dropWhile Char.isWhitespace = [] :=
      List.dropWhile_eq_nil_iff.mpr hall
    rw [pystrip, hdrop]
    rfl

theorem isEmpty_false_of_ne_nil {l : Str} (h : l ≠ []) : l.isEmpty = false := by
  cases l with
  | nil => exact absurd rfl h
  | cons a as => rfl

/-- One unfolding of the scanner on a text run (head character is not
`<`), exactly as the `else` branch of the Python loop. -/
theorem parseLoop_text_step (fuel : Nat) (c : Char) (r : Str) (stack : List SSMLNode)
    (root : Option SSMLNode) (seen : Bool) (hc : c ≠ '<') :
    parseLoop (fuel + 1) (c :: r) stack root seen =
      (if (pystrip ((c :: r).takeWhile (fun x => x ≠ '<'))).isEmpty then
        parseLoop fuel ((c :: r).dropWhile (fun x => x ≠ '<')) stack root seen
      else
        match stack with
        | [] => .error (.exc "Text outside root tag")
        | top :: ss =>
          parseLoop fuel ((c :: r).dropWhile (fun x => x ≠ '<'))
            (pushChild top (.text (unescapeXMLChars ((c :: r).takeWhile (fun x => x ≠ '<')))) :: ss)
            root seen) := by
  simp only [parseLoop, if_neg hc]

/-- C6: during parsing, a text run (maximal sequence up to the next `<`
or end of input) containing at least one non-whitespace character is
entity-decoded and appended as a Text child of the current stack top,
and fails with TextOutsideRoot ("Text outside root tag") when the
stack is empty; a run consisting only of whitespace is dropped without
error, whether or not the stack is empty. -/
theorem c6_text_run_handling (fuel : Nat) (c : Char) (r : Str) (stack : List SSMLNode)
    (root : Option SSMLNode) (seen : Bool) (hc : c ≠ '<') :
    ((((c :: r).takeWhile (fun x => x ≠ '<')).any (fun x => !x.isWhitespace) = true →
      (stack = [] →
        parseLoop (fuel + 1) (c :: r) stack root seen
          = .error (.exc "Text outside root tag")) ∧
      (∀ top ss, stack = top :: ss →
        parseLoop (fuel + 1) (c :: r) stack root seen
          = parseLoop fuel ((c :: r).dropWhile (fun x => x ≠ '<'))
              (pushChild top
                (.text (unescapeXMLChars ((c :: r).takeWhile (fun x => x ≠ '<')))) :: ss)
              root seen)) ∧
    (((c :: r).takeWhile (fun x => x ≠ '<')).any (fun x => !x.isWhitespace) = false →
      parseLoop (fuel + 1) (c :: r) stack root seen
        = parseLoop fuel ((c :: r).dropWhile (fun x => x ≠ '<')) stack root seen)) := by
  constructor
  · intro hany
    have hne : (pystrip ((c :: r).takeWhile (fun x => x ≠ '<'))).isEmpty = false := by
      refine isEmpty_false_of_ne_nil fun hnil => ?_
      rw [(pystrip_eq_nil_iff _).mp hnil] at hany
      exact absurd hany (by decide)
    constructor
    · intro hstack
      subst hstack
      rw [parseLoop_text_step fuel c r [] root seen hc, hne]
      rfl
    · intro top ss hstack
      subst hstack
      rw [parseLoop_text_step fuel c r (top :: ss) root seen hc, hne]
      rfl
  · intro hblank
    have hemp : (pystrip ((c :: r).takeWhile (fun x => x ≠ '<'))).isEmpty = true := by
      rw [(pystrip_eq_nil_iff _).mpr hblank]
      rfl
    rw [parseLoop_text_step fuel c r stack root seen hc, hemp]
    rfl

/-- Witness for C6: on the whitespace-only run `" "` with an empty
stack, the scanner drops the run without error. -/
theorem c6_text_run_handling_witness :
    (' ' ≠ '<') ∧
    parseLoop 4 [' '] [] none false
      = parseLoop 3 ([' '].dropWhile (fun x => x ≠ '<')) [] none false :=
  ⟨by decide, (c6_text_run_handling 3 ' ' [] [] none false (by decide)).2 (by decide)⟩

theorem textsNonBlankList_append (cs : List SSMLNode) (x : SSMLNode) :
    textsNonBlankList (cs ++ [x]) = (textsNonBlankList cs && textsNonBlank x) := by
  induction cs with
  | nil => simp [textsNonBlankList]
  | cons n ns ih =>
    show (textsNonBlank n && textsNonBlankList (ns ++ [x]))
        = ((textsNonBlank n && textsNonBlankList ns) && textsNonBlank x)
    rw [ih, Bool.and_assoc]

theorem pushChild_textsNonBlank {t child : SSMLNode}
    (ht : textsNonBlank t = true) (hc : textsNonBlank child = true) :
    textsNonBlank (pushChild t child) = true := by
  cases t with
  | text s => exact ht
  | tag n a cs =>
    show textsNonBlankList (cs ++ [child]) = true
    rw [textsNonBlankList_append]
    exact Bool.and_eq_true_iff.mpr ⟨ht, hc⟩

theorem pyreplaceF_any_nonWs {p r : Str}
    (hr : r.any (fun c => !c.isWhitespace) = true) :
    ∀ (n : Nat) (s : Str), s.any (fun c => !c.isWhitespace) = true →
      (pyreplaceF p r n s).any (fun c => !c.isWhitespace) = true := by
  intro n
  induction n with
  | zero =>
    intro s hs
    cases s with
    | nil => exact hs
    | cons c rest => exact hs
  | succ n ih =>
    intro s hs
    cases s with
    | nil => exact hs
    | cons c rest =>
      show (if !p.isEmpty && isPref p (c :: rest) then
              r ++ pyreplaceF p r n ((c :: rest).drop p.length)
            else c :: pyreplaceF p r n rest).any (fun c => !c.isWhitespace) = true
      by_cases hcond : (!p.isEmpty && isPref p (c :: rest)) = true
      · rw [if_pos hcond, List.any_append, hr, Bool.true_or]
      · rw [if_neg hcond]
        simp only [List.any_cons]
        cases hnw : (!c.isWhitespace) with
        | true => rfl
        | false =>
          simp only [List.any_cons, hnw, Bool.false_or] at hs
          rw [ih rest hs, Bool.or_true]

theorem unescape_any_nonWs {t : Str}
    (h : t.any (fun c => !c.isWhitespace) = true) :
    (unescapeXMLChars t).any (fun c => !c.isWhitespace) = true := by
  unfold unescapeXMLChars pyreplace
  exact pyreplaceF_any_nonWs (by decide) _ _
    (pyreplaceF_any_nonWs (by decide) _ _
      (pyreplaceF_any_nonWs (by decide) _ _ h))

/-- Invariant of the scanner loop: if every tree on the stack and the
recorded root contain only non-blank text nodes, so does any tree the
loop returns. -/
theorem parseLoop_textsNonBlank :
    ∀ (fuel : Nat) (rest : Str) (stack : List SSMLNode) (root : Option SSMLNode)
      (seen : Bool) (t : SSMLNode),
      textsNonBlankList stack = true →
      (∀ rt, root = some rt → textsNonBlank rt = true) →
      parseLoop fuel rest stack root seen = .ok t →
      textsNonBlank t = true := by
  intro fuel
  induction fuel with
  | zero =>
    intro rest stack root seen t _ _ hrun
    exact absurd hrun (by simp [parseLoop])
  | succ fuel ih =>
    intro rest stack root seen t hstack hroot hrun
    cases rest with
    | nil =>
      cases stack with
      | cons s ss => simp [parseLoop] at hrun
      | nil =>
        cases root with
        | none => simp [parseLoop] at hrun
        | some rt =>
          by_cases hn : nodeName rt = "speak".data
          · simp only [parseLoop, List.isEmpty_nil, Bool.not_true, Bool.false_eq_true,
              if_false, if_pos hn] at hrun
            cases hrun
            exact hroot t rfl
          · simp [parseLoop, hn] at hrun
    | cons c r =>
      simp only [parseLoop] at hrun
      by_cases hc : c = '<'
      · rw [if_pos hc] at hrun
        split at hrun
        · -- no '>' in the rest: "Missing closing angle bracket"
          simp at hrun
        · -- found '>'
          split at hrun
          · -- closing tag: pystrip content = '/' :: nm
            rename_i nm hps
            split at hrun
            · -- stack empty: "Unmatched closing tag"
              simp at hrun
            · rename_i top ss
              by_cases hnm : nodeName top ≠ pystrip nm
              · rw [if_pos hnm] at hrun
                simp at hrun
              · rw [if_neg hnm] at hrun
                simp only [textsNonBlankList, Bool.and_eq_true_iff] at hstack
                split at hrun
                · -- an ancestor remains: append popped node to it
                  rename_i parent ss'
                  refine ih _ _ _ _ _ ?_ hroot hrun
                  simp only [textsNonBlankList, Bool.and_eq_true_iff] at hstack ⊢
                  exact ⟨pushChild_textsNonBlank hstack.2.1 hstack.1, hstack.2.2⟩
                · -- popped node closes at top level
                  split at hrun
                  · simp at hrun
                  · refine ih _ [] (some top) true t rfl ?_ hrun
                    intro rt hrt
                    cases hrt
                    exact hstack.1
          · -- self-closing or opening tag
            rename_i tc hns
            split at hrun
            · -- self-closing
              split at hrun
              · simp at hrun
              · rename_i name tail hsp2
                split at hrun
                · simp at hrun
                · rename_i attrs hpa
                  split at hrun
                  · simp at hrun
                  · rename_i top ss
                    refine ih _ _ _ _ _ ?_ hroot hrun
                    simp only [textsNonBlankList, Bool.and_eq_true_iff] at hstack ⊢
                    refine ⟨pushChild_textsNonBlank hstack.1 ?_, hstack.2⟩
                    rfl
            · -- opening
              split at hrun
              · simp at hrun
              · rename_i name tail hsp2
                split at hrun
                · simp at hrun
                · rename_i attrs hpa
                  split at hrun
                  · simp at hrun
                  · refine ih _ _ _ _ _ ?_ hroot hrun
                    simp only [textsNonBlankList, Bool.and_eq_true_iff]
                    exact ⟨rfl, hstack⟩
      · rw [if_neg hc] at hrun
        split at hrun
        · exact ih _ _ _ _ _ hstack hroot hrun
        · rename_i hblank
          split at hrun
          · simp at hrun
          · rename_i top ss
            refine ih _ _ _ _ _ ?_ hroot hrun
            simp only [textsNonBlankList, Bool.and_eq_true_iff] at hstack ⊢
            refine ⟨pushChild_textsNonBlank hstack.1 ?_, hstack.2⟩
            show ((unescapeXMLChars ((c :: r).takeWhile (fun x => x ≠ '<'))).any
                (fun ch => !ch.isWhitespace)) = true
            refine unescape_any_nonWs ?_
            cases hany : ((c :: r).takeWhile (fun x => x ≠ '<')).any
                (fun ch => !ch.isWhitespace) with
            | false =>
              exact absurd ((pystrip_eq_nil_iff _).mpr hany) (by
                intro hnil
                exact hblank (by rw [hnil]; rfl))
            | true => rfl

/-- C9: every `text` node anywhere in a tree returned by a successful
`parseSSML` call has a payload containing at least one non-whitespace
character: purely-blank text never appears as a node in parse
output. -/
theorem c9_no_blank_text_nodes (s : Str) (t : SSMLNode)
    (h : parseSSML s = .ok t) : textsNonBlank t = true :=
  parseLoop_textsNonBlank (s.length + 1) s [] none false t rfl (fun _ hrt => by cases hrt) h

/-- Witness for C9 at the input `"<speak>hi</speak>"`. -/
theorem c9_no_blank_text_nodes_witness :
    parseSSML "<speak>hi</speak>".data = .ok (.tag "speak".data [] [.text "hi".data]) ∧
    textsNonBlank (.tag "speak".data [] [.text "hi".data]) = true :=
  ⟨rfl, c9_no_blank_text_nodes "<speak>hi</speak>".data _ rfl⟩

theorem find?_key_eq {V : Type} {l : List (String × V)} {k : String} {kv : String × V}
    (h : l.find? (fun p => p.1 == k) = some kv) : kv ∈ l ∧ kv.1 = k := by
  have hp : (kv.1 == k) = true := @List.find?_some _ (fun p => p.1 == k) kv l h
  exact ⟨List.mem_of_find?_eq_some h, beq_iff_eq.mp hp⟩

theorem entries_length_erase {V : Type} {l : List (String × V)} {k : String} {kv : String × V}
    (h : l.find? (fun p => p.1 == k) = some kv) :
    (l.eraseP (fun p => p.1 == k)).length + 1 = l.length := by
  have hm := List.mem_of_find?_eq_some h
  have hp := List.find?_some h
  rw [List.length_eraseP_of_mem hm hp]
  have h1 : 1 ≤ l.length := List.length_pos.mpr (List.ne_nil_of_mem hm)
  omega

theorem applyOp_bound {V : Type} {limit : Nat} (hlim : 1 ≤ limit) (c : LRUCache V)
    (op : LRUOp V) (hcap : c.capacity = limit) (hlen : c.entries.length ≤ limit)
    (c' : LRUCache V) (h : applyOp c op = .ok c') :
    c'.capacity = limit ∧ c'.entries.length ≤ limit := by
  cases op with
  | hasOp k =>
    simp only [applyOp, LRUCache.has] at h
    cases hf : c.entries.find? (fun p => p.1 == k) with
    | none =>
      simp only [hf] at h
      injection h with h
      subst h
      exact ⟨hcap, hlen⟩
    | some kv =>
      simp only [hf] at h
      injection h with h
      subst h
      refine ⟨hcap, ?_⟩
      have he := entries_length_erase hf
      simp only [List.length_cons]
      omega
  | getOp k =>
    simp only [applyOp, LRUCache.get] at h
    cases hf : c.entries.find? (fun p => p.1 == k) with
    | none =>
      simp only [hf] at h
      injection h with h
      subst h
      exact ⟨hcap, hlen⟩
    | some kv =>
      simp only [hf] at h
      injection h with h
      subst h
      refine ⟨hcap, ?_⟩
      have he := entries_length_erase hf
      simp only [List.length_cons]
      omega
  | setOp k v =>
    simp only [applyOp, LRUCache.set] at h
    cases hf : c.entries.find? (fun p => p.1 == k) with
    | some kv =>
      simp only [hf] at h
      injection h with h
      subst h
      refine ⟨hcap, ?_⟩
      have he := entries_length_erase hf
      simp only [List.length_cons]
      omega
    | none =>
      simp only [hf] at h
      by_cases hge : c.entries.length ≥ c.capacity
      · rw [if_pos hge] at h
        cases hgl : c.entries.getLast? with
        | none => rw [hgl] at h; cases h
        | some last =>
          rw [hgl] at h
          injection h with h
          subst h
          refine ⟨hcap, ?_⟩
          have hne : c.entries ≠ [] := by
            intro he
            rw [he] at hgl
            cases hgl
          have h1 : 1 ≤ c.entries.length := List.length_pos.mpr hne
          simp only [List.length_cons, List.length_dropLast]
          omega
      · rw [if_neg hge] at h
        injection h with h
        subst h
        refine ⟨hcap, ?_⟩
        simp only [List.length_cons]
        omega

theorem runOps_bound {V : Type} {limit : Nat} (hlim : 1 ≤ limit) :
    ∀ (ops : List (LRUOp V)) (c : LRUCache V),
      c.capacity = limit → c.entries.length ≤ limit →
      ∀ c', runOps c ops = .ok c' →
        c'.capacity = limit ∧ c'.entries.length ≤ limit := by
  intro ops
  induction ops with
  | nil =>
    intro c hcap hlen c' h
    injection h with h
    subst h
    exact ⟨hcap, hlen⟩
  | cons op rest ih =>
    intro c hcap hlen c' h
    simp only [runOps] at h
    cases ha : applyOp c op with
    | error e => rw [ha] at h; cases h
    | ok c1 =>
      rw [ha] at h
      obtain ⟨hcap1, hlen1⟩ := applyOp_bound hlim c op hcap hlen c1 ha
      exact ih c1 hcap1 hlen1 c' h

/-- C10: for a cache constructed with `item_limit ≥ 1`, after any
finite sequence of `has`/`get`/`set` operations (that did not fail) the
number of stored entries is at most `item_limit`. -/
theorem c10_capacity_bound {V : Type} (limit : Nat) (ops : List (LRUOp V))
    (c' : LRUCache V) (hlim : 1 ≤ limit)
    (h : runOps (LRUCache.init V limit) ops = .ok c') :
    c'.entries.length ≤ limit :=
  (runOps_bound hlim ops (LRUCache.init V limit) rfl (by simp [LRUCache.init]) c' h).2

/-- Witness for C10 at `item_limit = 1` with two inserts and a probe. -/
theorem c10_capacity_bound_witness :
    (1 ≤ 1) ∧
    runOps (LRUCache.init Nat 1) [.setOp "a" 0, .setOp "b" 1, .hasOp "b"]
      = .ok ⟨1, [("b", 1)]⟩ ∧
    ([("b", (1 : Nat))].length ≤ 1) :=
  ⟨le_refl 1, rfl,
    c10_capacity_bound 1 [.setOp "a" 0, .setOp "b" 1, .hasOp "b"] ⟨1, [("b", 1)]⟩
      (le_refl 1) rfl⟩

theorem lastAccAux_append {V : Type} (op : LRUOp V) (k : String) :
    ∀ (ops : List (LRUOp V)) (i : Nat),
      lastAccAux i (ops ++ [op]) k
        = if opKey op = k then some (i + ops.length) else lastAccAux i ops k := by
  intro ops
  induction ops with
  | nil =>
    intro i
    show (match lastAccAux (i + 1) ([] : List (LRUOp V)) k with
          | some t => some t
          | none => if opKey op = k then some i else none) = _
    by_cases h : opKey op = k
    · simp only [lastAccAux, if_pos h, List.length_nil, Nat.add_zero]
    · simp only [lastAccAux, if_neg h]
  | cons o os ih =>
    intro i
    show (match lastAccAux (i + 1) (os ++ [op]) k with
          | some t => some t
          | none => if opKey o = k then some i else none) = _
    rw [ih (i + 1)]
    by_cases h : opKey op = k
    · rw [if_pos h, if_pos h]
      show some (i + 1 + os.length) = some (i + (os.length + 1))
      congr 1
      omega
    · rw [if_neg h, if_neg h]
      rfl

theorem lastAcc_snoc {V : Type} (ops : List (LRUOp V)) (op : LRUOp V) (k : String) :
    lastAcc (ops ++ [op]) k = if opKey op = k then some ops.length else lastAcc ops k := by
  show lastAccAux 0 (ops ++ [op]) k = _
  rw [lastAccAux_append]
  simp only [Nat.zero_add]
  rfl

theorem lastAccAux_lt {V : Type} (k : String) :
    ∀ (ops : List (LRUOp V)) (i t : Nat), lastAccAux i ops k = some t → t < i + ops.length := by
  intro ops
  induction ops with
  | nil =>
    intro i t h
    cases h
  | cons o os ih =>
    intro i t h
    show t < i + (os.length + 1)
    cases hrec : lastAccAux (i + 1) os k with
    | some t' =>
      simp only [lastAccAux, hrec] at h
      injection h with h
      have h2 := ih (i + 1) t' hrec
      omega
    | none =>
      simp only [lastAccAux, hrec] at h
      by_cases ho : opKey o = k
      · rw [if_pos ho] at h
        injection h with h
        omega
      · rw [if_neg ho] at h
        cases h

theorem lastAcc_lt {V : Type} {ops : List (LRUOp V)} {k : String} {t : Nat}
    (h : lastAcc ops k = some t) : t < ops.length := by
  have := lastAccAux_lt k ops 0 t h
  omega

theorem runOps_append {V : Type} (c : LRUCache V) (ops : List (LRUOp V)) (op : LRUOp V) :
    runOps c (ops ++ [op])
      = match runOps c ops with
        | .ok c' => applyOp c' op
        | .error e => .error e := by
  induction ops generalizing c with
  | nil =>
    show (match applyOp c op with
          | .error e => Except.error e
          | .ok c1 => Except.ok c1) = applyOp c op
    cases applyOp c op <;> rfl
  | cons o os ih =>
    show (match applyOp c o with
          | .error e => Except.error e
          | .ok c1 => runOps c1 (os ++ [op]))
        = (match (match applyOp c o with
                  | .error e => Except.error e
                  | .ok c1 => runOps c1 os) with
           | .ok c' => applyOp c' op
           | .error e => Except.error e)
    cases applyOp c o with
    | error e => rfl
    | ok c1 => exact ih c1

theorem mem_decomp_unique {V : Type} {l : List (String × V)} {k : String} {v : V}
    (hnd : (l.map Prod.fst).Nodup) (hmem : (k, v) ∈ l) :
    ∃ pre post, l = pre ++ (k, v) :: post ∧
      (∀ q ∈ pre, q.1 ≠ k) ∧ (∀ q ∈ post, q.1 ≠ k) := by
  obtain ⟨pre, post, rfl⟩ := List.append_of_mem hmem
  rw [List.map_append, List.map_cons, List.nodup_middle, List.nodup_cons] at hnd
  refine ⟨pre, post, rfl, ?_, ?_⟩
  · intro q hq hqk
    exact hnd.1 (by
      rw [← List.map_append]
      exact List.mem_map.mpr ⟨q, List.mem_append_left post hq, hqk⟩)
  · intro q hq hqk
    exact hnd.1 (by
      rw [← List.map_append]
      exact List.mem_map.mpr ⟨q, List.mem_append_right pre hq, hqk⟩)

theorem find?_decomp {V : Type} (pre post : List (String × V)) (k : String) (v : V)
    (hpre : ∀ q ∈ pre, q.1 ≠ k) :
    (pre ++ (k, v) :: post).find? (fun p => p.1 == k) = some (k, v) := by
  induction pre with
  | nil =>
    rw [List.nil_append]
    exact List.find?_cons_of_pos post (by simp)
  | cons q pre' ih =>
    rw [List.cons_append, List.find?_cons_of_neg _ (by
      simp only [beq_iff_eq]
      exact hpre q (List.mem_cons_self q pre'))]
    exact ih (fun q' hq' => hpre q' (List.mem_cons_of_mem q hq'))

theorem eraseP_decomp {V : Type} (pre post : List (String × V)) (k : String) (v : V)
    (hpre : ∀ q ∈ pre, q.1 ≠ k) :
    (pre ++ (k, v) :: post).eraseP (fun p => p.1 == k) = pre ++ post := by
  rw [List.eraseP_append_right _ (fun b hb => by simp [hpre b hb]),
    List.eraseP_cons_of_pos (by simp)]

theorem recency_push_list {V : Type} {ops : List (LRUOp V)} {op : LRUOp V}
    {entries sub : List (String × V)}
    (hpw : entries.Pairwise (fun a b => moreRecent ops a.1 b.1))
    (hacc : ∀ q ∈ entries, ∃ t, lastAcc ops q.1 = some t)
    (hnd : (entries.map Prod.fst).Nodup)
    (hsub : sub.Sublist entries)
    (hkeys : ∀ q ∈ sub, q.1 ≠ opKey op) (v : V) :
    ((opKey op, v) :: sub).Pairwise (fun a b => moreRecent (ops ++ [op]) a.1 b.1) ∧
    (∀ q ∈ (opKey op, v) :: sub, ∃ t, lastAcc (ops ++ [op]) q.1 = some t) ∧
    (((opKey op, v) :: sub).map Prod.fst).Nodup := by
  have hkeep : ∀ k' : String, k' ≠ opKey op →
      lastAcc (ops ++ [op]) k' = lastAcc ops k' := by
    intro k' hk'
    rw [lastAcc_snoc]
    exact if_neg (fun hh => hk' hh.symm)
  have hnew : lastAcc (ops ++ [op]) (opKey op) = some ops.length := by
    rw [lastAcc_snoc, if_pos rfl]
  refine ⟨?_, ?_, ?_⟩
  · rw [List.pairwise_cons]
    constructor
    · intro b hb
      obtain ⟨t, ht⟩ := hacc b (hsub.subset hb)
      exact ⟨ops.length, t, hnew, by rw [hkeep _ (hkeys b hb)]; exact ht, lastAcc_lt ht⟩
    · refine (hpw.sublist hsub).imp_of_mem ?_
      intro a b ha hb hR
      obtain ⟨t1, t2, h1, h2, hlt⟩ := hR
      exact ⟨t1, t2, by rw [hkeep _ (hkeys a ha)]; exact h1,
        by rw [hkeep _ (hkeys b hb)]; exact h2, hlt⟩
  · intro q hq
    rcases List.mem_cons.mp hq with hq | hq
    · subst hq
      exact ⟨ops.length, hnew⟩
    · obtain ⟨t, ht⟩ := hacc q (hsub.subset hq)
      exact ⟨t, by rw [hkeep _ (hkeys q hq)]; exact ht⟩
  · rw [List.map_cons, List.nodup_cons]
    constructor
    · intro hmem
      obtain ⟨q, hq, hqk⟩ := List.mem_map.mp hmem
      exact hkeys q hq hqk
    · exact hnd.sublist (hsub.map Prod.fst)

theorem recency_keep_list {V : Type} {ops : List (LRUOp V)} {op : LRUOp V}
    {entries : List (String × V)}
    (hpw : entries.Pairwise (fun a b => moreRecent ops a.1 b.1))
    (hacc : ∀ q ∈ entries, ∃ t, lastAcc ops q.1 = some t)
    (hnd : (entries.map Prod.fst).Nodup)
    (hkeys : ∀ q ∈ entries, q.1 ≠ opKey op) :
    entries.Pairwise (fun a b => moreRecent (ops ++ [op]) a.1 b.1) ∧
    (∀ q ∈ entries, ∃ t, lastAcc (ops ++ [op]) q.1 = some t) ∧
    (entries.map Prod.fst).Nodup := by
  have hkeep : ∀ k' : String, k' ≠ opKey op →
      lastAcc (ops ++ [op]) k' = lastAcc ops k' := by
    intro k' hk'
    rw [lastAcc_snoc]
    exact if_neg (fun hh => hk' hh.symm)
  refine ⟨?_, ?_, hnd⟩
  · refine hpw.imp_of_mem ?_
    intro a b ha hb hR
    obtain ⟨t1, t2, h1, h2, hlt⟩ := hR
    exact ⟨t1, t2, by rw [hkeep _ (hkeys a ha)]; exact h1,
      by rw [hkeep _ (hkeys b hb)]; exact h2, hlt⟩
  · intro q hq
    obtain ⟨t, ht⟩ := hacc q hq
    exact ⟨t, by rw [hkeep _ (hkeys q hq)]; exact ht⟩

theorem keys_ne_of_find?_none {V : Type} {l : List (String × V)} {k : String}
    (hf : l.find? (fun p => p.1 == k) = none) : ∀ q ∈ l, q.1 ≠ k :=
  fun q hq hqk => List.find?_eq_none.mp hf q hq (by simp [hqk])

theorem applyOp_recency {V : Type} {ops : List (LRUOp V)} {c c' : LRUCache V} {op : LRUOp V}
    (hinv : RecencyInv ops c) (h : applyOp c op = .ok c') :
    RecencyInv (ops ++ [op]) c' := by
  obtain ⟨hpw, hacc, hnd⟩ := hinv
  cases op with
  | hasOp k =>
    simp only [applyOp, LRUCache.has] at h
    cases hf : c.entries.find? (fun p => p.1 == k) with
    | none =>
      simp only [hf] at h
      injection h with h
      subst h
      exact recency_keep_list hpw hacc hnd (keys_ne_of_find?_none hf)
    | some kv =>
      simp only [hf] at h
      injection h with h
      subst h
      obtain ⟨hmem, hk⟩ := find?_key_eq hf
      obtain ⟨k1, v1⟩ := kv
      cases hk
      obtain ⟨pre, post, hdec, hpre, hpost⟩ := mem_decomp_unique hnd hmem
      have her : c.entries.eraseP (fun p => p.1 == k1) = pre ++ post := by
        rw [hdec]
        exact eraseP_decomp pre post k1 v1 hpre
      have hkeys : ∀ q ∈ pre ++ post, q.1 ≠ k1 :=
        fun q hq => (List.mem_append.mp hq).elim (hpre q) (hpost q)
      have hsub : (pre ++ post).Sublist c.entries := her ▸ List.eraseP_sublist c.entries
      simp only [RecencyInv, her]
      exact @recency_push_list V ops (.hasOp k1) c.entries (pre ++ post)
        hpw hacc hnd hsub hkeys v1
  | getOp k =>
    simp only [applyOp, LRUCache.get] at h
    cases hf : c.entries.find? (fun p => p.1 == k) with
    | none =>
      simp only [hf] at h
      injection h with h
      subst h
      exact recency_keep_list hpw hacc hnd (keys_ne_of_find?_none hf)
    | some kv =>
      simp only [hf] at h
      injection h with h
      subst h
      obtain ⟨hmem, hk⟩ := find?_key_eq hf
      obtain ⟨k1, v1⟩ := kv
      cases hk
      obtain ⟨pre, post, hdec, hpre, hpost⟩ := mem_decomp_unique hnd hmem
      have her : c.entries.eraseP (fun p => p.1 == k1) = pre ++ post := by
        rw [hdec]
        exact eraseP_decomp pre post k1 v1 hpre
      have hkeys : ∀ q ∈ pre ++ post, q.1 ≠ k1 :=
        fun q hq => (List.mem_append.mp hq).elim (hpre q) (hpost q)
      have hsub : (pre ++ post).Sublist c.entries := her ▸ List.eraseP_sublist c.entries
      simp only [RecencyInv, her]
      exact @recency_push_list V ops (.getOp k1) c.entries (pre ++ post)
        hpw hacc hnd hsub hkeys v1
  | setOp k v =>
    simp only [applyOp, LRUCache.set] at h
    cases hf : c.entries.find? (fun p => p.1 == k) with
    | some kv =>
      simp only [hf] at h
      injection h with h
      subst h
      obtain ⟨hmem, hk⟩ := find?_key_eq hf
      obtain ⟨k1, v1⟩ := kv
      cases hk
      obtain ⟨pre, post, hdec, hpre, hpost⟩ := mem_decomp_unique hnd hmem
      have her : c.entries.eraseP (fun p => p.1 == k1) = pre ++ post := by
        rw [hdec]
        exact eraseP_decomp pre post k1 v1 hpre
      have hkeys : ∀ q ∈ pre ++ post, q.1 ≠ k1 :=
        fun q hq => (List.mem_append.mp hq).elim (hpre q) (hpost q)
      have hsub : (pre ++ post).Sublist c.entries := her ▸ List.eraseP_sublist c.entries
      simp only [RecencyInv, her]
      exact @recency_push_list V ops (.setOp k1 v) c.entries (pre ++ post)
        hpw hacc hnd hsub hkeys v
    | none =>
      simp only [hf] at h
      by_cases hge : c.entries.length ≥ c.capacity
      · rw [if_pos hge] at h
        cases hgl : c.entries.getLast? with
        | none => rw [hgl] at h; cases h
        | some last =>
          rw [hgl] at h
          injection h with h
          subst h
          simp only [RecencyInv]
          refine @recency_push_list V ops (.setOp k v) c.entries c.entries.dropLast
            hpw hacc hnd (List.dropLast_sublist c.entries) ?_ v
          exact fun q hq =>
            keys_ne_of_find?_none hf q ((List.dropLast_sublist c.entries).subset hq)
      · rw [if_neg hge] at h
        injection h with h
        subst h
        simp only [RecencyInv]
        exact @recency_push_list V ops (.setOp k v) c.entries c.entries
          hpw hacc hnd (List.Sublist.refl c.entries) (keys_ne_of_find?_none hf) v

theorem runOps_recency {V : Type} (limit : Nat) :
    ∀ (ops : List (LRUOp V)) (c : LRUCache V),
      runOps (LRUCache.init V limit) ops = .ok c → RecencyInv ops c := by
  intro ops
  induction ops using List.reverseRecOn with
  | nil =>
    intro c h
    injection h with h
    subst h
    exact ⟨List.Pairwise.nil, fun q hq => absurd hq (List.not_mem_nil q), List.nodup_nil⟩
  | append_singleton os op ih =>
    intro c h
    rw [runOps_append] at h
    cases hr : runOps (LRUCache.init V limit) os with
    | error e => rw [hr] at h; cases h
    | ok c1 =>
      rw [hr] at h
      exact applyOp_recency (ih c1 hr) h

/-- C8: for a cache with capacity at least 1 reached by a history
`ops`: (1) `has`, `get` and `set` on a present key each move that entry
to the most-recently-used position (the front of the recency order),
leaving every other entry's position ordering and value unchanged; and
(2) `set` with a new key when the cache holds capacity-many entries
evicts exactly the entry at the least-recently-used end, which is the
entry whose most recent access by any of the three operations is
oldest (every other stored key was accessed more recently), leaving all
other entries' values unchanged. -/
theorem c8_lru_recency (V : Type) (limit : Nat) (ops : List (LRUOp V)) (c : LRUCache V)
    (hlim : 1 ≤ limit) (hrun : runOps (LRUCache.init V limit) ops = .ok c) :
    (∀ k v, (k, v) ∈ c.entries →
      ∃ pre post, c.entries = pre ++ (k, v) :: post ∧
        (∀ q ∈ pre ++ post, q.1 ≠ k) ∧
        c.has k = (true, ⟨c.capacity, (k, v) :: (pre ++ post)⟩) ∧
        c.get k = (some v, ⟨c.capacity, (k, v) :: (pre ++ post)⟩) ∧
        (∀ w, c.set k w = .ok ⟨c.capacity, (k, w) :: (pre ++ post)⟩)) ∧
    (∀ k v, (∀ q ∈ c.entries, q.1 ≠ k) → c.entries.length = limit →
      ∃ rest evicted, c.entries = rest ++ [evicted] ∧
        c.set k v = .ok ⟨c.capacity, (k, v) :: rest⟩ ∧
        (∀ q ∈ rest, moreRecent ops q.1 evicted.1)) := by
  obtain ⟨hpw, hacc, hnd⟩ := runOps_recency limit ops c hrun
  have hcap : c.capacity = limit :=
    (runOps_bound hlim ops (LRUCache.init V limit) rfl (by simp [LRUCache.init]) c hrun).1
  constructor
  · intro k v hmem
    obtain ⟨pre, post, hdec, hpre, hpost⟩ := mem_decomp_unique hnd hmem
    have hkeys : ∀ q ∈ pre ++ post, q.1 ≠ k :=
      fun q hq => (List.mem_append.mp hq).elim (hpre q) (hpost q)
    have hfind : c.entries.find? (fun p => p.1 == k) = some (k, v) := by
      rw [hdec]
      exact find?_decomp pre post k v hpre
    have her : c.entries.eraseP (fun p => p.1 == k) = pre ++ post := by
      rw [hdec]
      exact eraseP_decomp pre post k v hpre
    refine ⟨pre, post, hdec, hkeys, ?_, ?_, ?_⟩
    · simp only [LRUCache.has, hfind, her]
    · simp only [LRUCache.get, hfind, her]
    · intro w
      simp only [LRUCache.set, hfind, her]
  · intro k v hkeys hlen
    have hne : c.entries ≠ [] := by
      intro he
      have h0 : (0 : Nat) = limit := by
        rw [he] at hlen
        simpa using hlen
      omega
    have hfind : c.entries.find? (fun p => p.1 == k) = none :=
      List.find?_eq_none.mpr (fun x hx => by simp [hkeys x hx])
    have hge : c.entries.length ≥ c.capacity := by rw [hcap, hlen]
    have hgl : c.entries.getLast? = some (c.entries.getLast hne) :=
      List.getLast?_eq_getLast c.entries hne
    refine ⟨c.entries.dropLast, c.entries.getLast hne,
      (List.dropLast_append_getLast hne).symm, ?_, ?_⟩
    · simp only [LRUCache.set, hfind, if_pos hge, hgl]
    · have hpw' := hpw
      rw [← List.dropLast_append_getLast hne] at hpw'
      intro q hq
      exact (List.pairwise_append.mp hpw').2.2 q hq _ (List.mem_singleton.mpr rfl)

/-- Witness for C8 at capacity 1 after the single operation
`set "a" 0`. -/
theorem c8_lru_recency_witness :
    (1 ≤ 1) ∧
    runOps (LRUCache.init Nat 1) [.setOp "a" 0] = .ok ⟨1, [("a", 0)]⟩ ∧
    ((∀ k v, (k, v) ∈ (⟨1, [("a", 0)]⟩ : LRUCache Nat).entries →
      ∃ pre post, (⟨1, [("a", 0)]⟩ : LRUCache Nat).entries = pre ++ (k, v) :: post ∧
        (∀ q ∈ pre ++ post, q.1 ≠ k) ∧
        (⟨1, [("a", 0)]⟩ : LRUCache Nat).has k
          = (true, ⟨(⟨1, [("a", 0)]⟩ : LRUCache Nat).capacity, (k, v) :: (pre ++ post)⟩) ∧
        (⟨1, [("a", 0)]⟩ : LRUCache Nat).get k
          = (some v, ⟨(⟨1, [("a", 0)]⟩ : LRUCache Nat).capacity, (k, v) :: (pre ++ post)⟩) ∧
        (∀ w, (⟨1, [("a", 0)]⟩ : LRUCache Nat).set k w
          = .ok ⟨(⟨1, [("a", 0)]⟩ : LRUCache Nat).capacity, (k, w) :: (pre ++ post)⟩)) ∧
    (∀ k v, (∀ q ∈ (⟨1, [("a", 0)]⟩ : LRUCache Nat).entries, q.1 ≠ k) →
      (⟨1, [("a", 0)]⟩ : LRUCache Nat).entries.length = 1 →
      ∃ rest evicted, (⟨1, [("a", 0)]⟩ : LRUCache Nat).entries = rest ++ [evicted] ∧
        (⟨1, [("a", 0)]⟩ : LRUCache Nat).set k v
          = .ok ⟨(⟨1, [("a", 0)]⟩ : LRUCache Nat).capacity, (k, v) :: rest⟩ ∧
        (∀ q ∈ rest, moreRecent [LRUOp.setOp "a" 0] q.1 evicted.1))) :=
  ⟨le_refl 1, rfl,
    c8_lru_recency Nat 1 [.setOp "a" 0] ⟨1, [("a", 0)]⟩ (le_refl 1) rfl⟩
